import Mathlib

/-!
Verification of the truth-table generator in src/truth-table.py.

The Python source is shallowly embedded: propositional-formula trees become the
inductive type PyTree (with a constructor for the Python value None, since the
parser can build trees with missing children), strings become List Char, the
regular expressions of the parser become explicit character-class matchers, and
the mutable default-argument stack of the parse function is threaded explicitly
(a parse call receives the stack object's state and returns its state after the
call).  Python exceptions become error values: IndexError (popping an empty
stack), RecursionError (unbounded recursion, modelled by fuel), KeyError
(evaluation under an assignment missing a name), AttributeError (method or
attribute access on None).
-/

set_option maxHeartbeats 1000000

namespace TT

/-- Character class of the regex fragment [a-uw-zA-Z] in src/truth-table.py
(used by the patterns named prop, neg and by re.findall in table): the
characters that may start a proposition token.  Lowercase v is excluded. -/
def isStartChar (c : Char) : Bool :=
  (decide ('a' ≤ c) && decide (c ≤ 'u')) ||
  (decide ('w' ≤ c) && decide (c ≤ 'z')) ||
  (decide ('A' ≤ c) && decide (c ≤ 'Z'))

/-- Character class of the regex fragment [a-uw-zA-Z_0-9]: continuation
characters of a proposition token.  Lowercase v is excluded here as well. -/
def isContChar (c : Char) : Bool :=
  isStartChar c || (c == '_') || (decide ('0' ≤ c) && decide (c ≤ '9'))

/-- The four binary connective classes Conj, Disj, Cond, Bicond. -/
inductive BinKind where
  | conj | disj | cond | bicond
deriving DecidableEq

/-- Python values flowing through the parser and evaluator: None, Prop(name),
Not(r) and the four binary operation classes.  The none constructor is needed
because the simple function returns None when no grammar case matches, and such
None values end up as children of constructed nodes. -/
inductive PyTree where
  | none
  | prop (name : List Char)
  | notE (r : PyTree)
  | binop (k : BinKind) (l : PyTree) (r : PyTree)
deriving DecidableEq

/-- The symbol attribute of each binary class, with the surrounding spaces used
by BinOp.__str__ (which renders "(" + str(l) + " SYM " + str(r) + ")"). -/
def binSym : BinKind → List Char
  | .conj => (" ^ ").toList
  | .disj => (" v ").toList
  | .cond => (" -> ").toList
  | .bicond => (" <-> ").toList

/-- str() on a parser value: BinOp.__str__, Not.__str__, Prop.__str__, and
str(None) = "None" for the Python value None. -/
def renderL : PyTree → List Char
  | .none => ("None").toList
  | .prop n => n
  | .notE r => '¬' :: renderL r
  | .binop k l r => '(' :: (renderL l ++ binSym k ++ renderL r ++ [')'])

/-- Helper for paren: the prefix of the string up to and including the first
close parenthesis, or none when the string has no close parenthesis
(str.find returns -1 and the Python loop body never runs). -/
def parenAux : List Char → Option (List Char)
  | [] => Option.none
  | c :: rest => if c = ')' then some [c] else (parenAux rest).map (fun l => c :: l)

/-- Helper for paren: the suffix of the prefix starting at its last open
parenthesis; the whole prefix when it contains no open parenthesis (the Python
loop walks down without hitting its break). -/
def lastOpenSuffix : List Char → List Char
  | [] => []
  | c :: rest => if '(' ∈ rest then lastOpenSuffix rest else c :: rest

/-- The paren function of the source: identify the most nested pair of
parentheses, scanning back from the first close parenthesis to the nearest
open parenthesis; returns the empty string when there is no close parenthesis. -/
def paren (s : List Char) : List Char :=
  match parenAux s with
  | Option.none => []
  | some pre => lastOpenSuffix pre

/-- re.search for a literal pattern: substring containment. -/
def containsSub (pat s : List Char) : Bool :=
  s.tails.any (fun t2 => pat.isPrefixOf t2)

/-- Worker for splitL: re.split on a literal nonempty pattern, scanning left to
right for non-overlapping occurrences.  The fuel argument, set to the length of
the input by splitL, makes the recursion structural; each step consumes at
least one character so the fuel never runs out before the input does. -/
def splitAllGo (pat : List Char) : Nat → List Char → List Char → List (List Char)
  | _, acc, [] => [acc.reverse]
  | 0, acc, s => [acc.reverse ++ s]
  | fuel+1, acc, c :: rest =>
    if pat.isPrefixOf (c :: rest) then
      acc.reverse :: splitAllGo pat fuel [] (List.drop (pat.length - 1) rest)
    else splitAllGo pat fuel (c :: acc) rest

/-- re.split(pattern, s) for the literal connective and negation patterns of
the source; all parts between consecutive occurrences are produced. -/
def splitL (pat : List Char) (s : List Char) : List (List Char) :=
  match pat with
  | [] => [s]
  | _ :: _ => splitAllGo pat s.length [] s

/-- Worker for pyReplace, with the same fuel discipline as splitAllGo. -/
def pyReplaceGo (pat new : List Char) : Nat → List Char → List Char
  | _, [] => []
  | 0, s => s
  | fuel+1, c :: rest =>
    if pat.isPrefixOf (c :: rest) then
      new ++ pyReplaceGo pat new fuel (List.drop (pat.length - 1) rest)
    else c :: pyReplaceGo pat new fuel rest

/-- str.replace(pat, new): replaces every non-overlapping occurrence left to
right.  With an empty pattern Python inserts the replacement at every position,
including both ends; the parse function actually hits this case when paren
returns the empty string on input without a close parenthesis. -/
def pyReplace (s pat new : List Char) : List Char :=
  match pat with
  | [] => new ++ s.flatMap (fun c => c :: new)
  | _ :: _ => pyReplaceGo pat new s.length s

/-- re.findall(r"[a-uw-zA-Z][a-uw-zA-Z_0-9]*", exp)[0]: the first maximal
proposition token of the string (the source indexes [0]; the total fallback []
is unreachable because the call site is guarded by a full match of prop). -/
def firstToken : List Char → List Char
  | [] => []
  | c :: rest => if isStartChar c then c :: rest.takeWhile isContChar else firstToken rest

/-- Tail of contTail: after the leading token characters a prop/neg match may
end with one optional close parenthesis.  This matches the regex fragment
[a-uw-zA-Z_0-9]*\)? applied to the remainder of the string. -/
def contTail : List Char → Bool
  | [] => true
  | c :: rest => if c = ')' then decide (rest = []) else isContChar c && contTail rest

/-- Core of fullmatchProp after the optional open parenthesis: one start
character, then continuation characters, then an optional close parenthesis. -/
def propCore : List Char → Bool
  | [] => false
  | c :: rest => isStartChar c && contTail rest

/-- re.fullmatch of the pattern named prop: \(?[a-uw-zA-Z][a-uw-zA-Z_0-9]*\)? -/
def fullmatchProp : List Char → Bool
  | [] => false
  | c :: rest => if c = '(' then propCore rest else propCore (c :: rest)

/-- Core of fullmatchNeg after the negation sign: one character from
[a-uw-zA-Z\(], then continuation characters, then an optional close paren. -/
def negCore : List Char → Bool
  | [] => false
  | c :: rest => (isStartChar c || c = '(') && contTail rest

/-- re.fullmatch of the pattern named neg:
[ \(]*¬[a-uw-zA-Z\(][a-uw-zA-Z_0-9]*\)? -/
def fullmatchNeg : List Char → Bool
  | [] => false
  | c :: rest =>
    if c = ' ' || c = '(' then fullmatchNeg rest
    else c = '¬' && negCore rest

/-- re.fullmatch of the pattern named tmpre: \(?tmp\)? matches exactly the four
strings tmp, (tmp, tmp), (tmp). -/
def fullmatchTmpre (s : List Char) : Bool :=
  decide (s = ("tmp").toList) || decide (s = ("(tmp").toList) ||
  decide (s = ("tmp)").toList) || decide (s = ("(tmp)").toList)

/-- The loop over biops in the simple function: the first of the four
connective patterns found by re.search in the fragment, in the source order
disj, conj, cond, bicond, together with the literal pattern to split on. -/
def firstBiop (exp : List Char) : Option (BinKind × List Char) :=
  if containsSub ((" v ").toList) exp then some (.disj, (" v ").toList)
  else if containsSub ((" ^ ").toList) exp then some (.conj, (" ^ ").toList)
  else if containsSub ((" -> ").toList) exp then some (.cond, (" -> ").toList)
  else if containsSub ((" <-> ").toList) exp then some (.bicond, (" <-> ").toList)
  else Option.none

/-- exp.split("¬")[1] in the negation branch of simple. -/
def splitNotTail (exp : List Char) : List Char :=
  (splitL (['¬']) exp).getD 1 []

/-- The simple function of the source, parsing one bare fragment.  The fuel is
set to the length of the fragment by the simple wrapper; every recursive call
strictly shortens the fragment (the split consumes at least the pattern), so
the fuel never runs out and the embedding computes exactly what the Python
recursion computes.  When no case matches the Python function falls off its
end and returns None. -/
def simpleF : Nat → List Char → PyTree
  | 0, _ => .none
  | fuel+1, exp =>
    if fullmatchTmpre exp then .prop (("tmp").toList)
    else if fullmatchProp exp then .prop (firstToken exp)
    else if fullmatchNeg exp then .notE (simpleF fuel (splitNotTail exp))
    else
      match firstBiop exp with
      | some (k, pat) =>
        match splitL pat exp with
        | p0 :: p1 :: _ => .binop k (simpleF fuel p0) (simpleF fuel p1)
        | _ => .none
      | Option.none => .none

/-- simple(exp): parse a single operation enclosed in parentheses. -/
def simple (exp : List Char) : PyTree := simpleF exp.length exp

/-- type(x) is Prop and x.name == "tmp". -/
def isTmpProp : PyTree → Bool
  | .prop n => decide (n = ("tmp").toList)
  | _ => false

/-- Fifth try block of tmp_replace: type(main.r.l) is Not and
main.r.l.r.name == "tmp"; any failing attribute access falls through. -/
def tmpReplaceB5 (main tree : PyTree) : Bool × PyTree :=
  match main with
  | .notE (.binop k2 (.notE r5) r2) =>
    if isTmpProp r5 then (true, .notE (.binop k2 (.notE tree) r2)) else (false, main)
  | .binop k l (.binop k2 (.notE r5) r2) =>
    if isTmpProp r5 then (true, .binop k l (.binop k2 (.notE tree) r2)) else (false, main)
  | _ => (false, main)

/-- Fourth try block of tmp_replace: type(main.l) is Prop and
main.l.name == "tmp". -/
def tmpReplaceB4 (main tree : PyTree) : Bool × PyTree :=
  match main with
  | .binop k l r =>
    if isTmpProp l then (true, .binop k tree r) else tmpReplaceB5 main tree
  | _ => tmpReplaceB5 main tree

/-- Third try block of tmp_replace: type(main.l) is Not and
main.l.r.name == "tmp".  The elif on main.l.l.name always raises
AttributeError (Not objects have no l attribute), so it never fires. -/
def tmpReplaceB3 (main tree : PyTree) : Bool × PyTree :=
  match main with
  | .binop k (.notE r3) r =>
    if isTmpProp r3 then (true, .binop k (.notE tree) r) else tmpReplaceB4 main tree
  | _ => tmpReplaceB4 main tree

/-- Second try block of tmp_replace: type(main.r) is Not and
main.r.r.name == "tmp".  As in the third block, the elif on main.r.l.name
always raises AttributeError and never fires; when main.r.r has no name
attribute the whole block is skipped by the except clause. -/
def tmpReplaceB2 (main tree : PyTree) : Bool × PyTree :=
  match main with
  | .notE (.notE r2) =>
    if isTmpProp r2 then (true, .notE (.notE tree)) else tmpReplaceB3 main tree
  | .binop k l (.notE r2) =>
    if isTmpProp r2 then (true, .binop k l (.notE tree)) else tmpReplaceB3 main tree
  | _ => tmpReplaceB3 main tree

/-- tmp_replace(main, tree): replace a tmp node by tree in main.  The Python
function mutates main in place and returns whether it replaced anything; the
embedding returns the flag together with the value of main after the call
(unchanged when the flag is false, since no block mutates before returning
True).  First try block: type(main.r) is Prop and main.r.name == "tmp". -/
def tmpReplace (main tree : PyTree) : Bool × PyTree :=
  match main with
  | .notE r =>
    if isTmpProp r then (true, .notE tree) else tmpReplaceB2 main tree
  | .binop k l r =>
    if isTmpProp r then (true, .binop k l tree) else tmpReplaceB2 main tree
  | _ => tmpReplaceB2 main tree

/-- The assignment tmp.r = tree in the branch of parse that matches the literal
string ¬tmp.  On that branch tmp is always a Not node; the other cases are
unreachable but modelled totally (Python would create a stray attribute on a
Prop, invisible to str and eval, and raise AttributeError on None). -/
def setR : PyTree → PyTree → PyTree
  | .notE _, t => .notE t
  | .binop k l _, t => .binop k l t
  | .prop n, _ => .prop n
  | .none, _ => .none

/-- Exceptions the parse function can raise: RecursionError from unbounded
recursion (modelled by fuel exhaustion) and IndexError from popping an empty
stack. -/
inductive PErr where
  | recursionError | indexError
deriving DecidableEq

/-- The parse function of the source.  The stack parameter is the state of the
mutable default-argument list (Python evaluates stack=[None] once at function
definition, so the same object is reused across top-level calls; the embedding
makes that object explicit, with the top of the Python list at the head here).
A successful call returns the tree together with the state the stack object is
left in, which is what a later call picking up the default argument sees. -/
def parseS : Nat → List Char → List PyTree → Except PErr (PyTree × List PyTree)
  | 0, _, _ => .error .recursionError
  | fuel+1, exp, stack =>
    match stack with
    | [] => .error .indexError
    | tree :: rest =>
      if paren exp = exp then
        if tree = PyTree.none then .ok (simple exp, rest)
        else .ok ((tmpReplace (simple exp) tree).2, rest)
      else if exp = ("¬tmp").toList then
        .ok (setR (simple exp) tree, rest)
      else if fullmatchProp exp || fullmatchNeg exp then
        .ok (simple exp, rest)
      else
        let p := paren exp
        let stk :=
          if tree = PyTree.none then simple p :: rest
          else
            let fr := tmpReplace (simple p) tree
            if fr.1 then fr.2 :: rest else fr.2 :: tree :: rest
        match parseS fuel (pyReplace exp p (("tmp").toList)) stk with
        | .error e => .error e
        | .ok (result, stk2) =>
          if containsSub (("tmp").toList) (renderL result) then
            match stk2 with
            | [] => .error .indexError
            | top :: stk3 => .ok ((tmpReplace result top).2, stk3)
          else .ok (result, stk2)

/-- parse(s) succeeds on a fresh interpreter (default stack state [None]) for
some recursion budget. -/
def parseAccepts (s : String) : Prop :=
  ∃ fuel r, parseS fuel s.toList [PyTree.none] = Except.ok r

/-- Exceptions the eval methods can raise: KeyError when a proposition name is
absent from the assignment dictionary, AttributeError when eval is invoked on
the Python value None. -/
inductive EErr where
  | keyError (n : List Char) | attributeError
deriving DecidableEq

/-- An assignment dictionary, as the association list it is built from; lookup
follows Python dict semantics where a later binding overrides an earlier one. -/
abbrev Env := List (List Char × Bool)

/-- env[name]: Python dict lookup on the association list the dict was built
from; the last binding of a key wins. -/
def dictGet : Env → List Char → Option Bool
  | [], _ => Option.none
  | (k2, v) :: rest, k =>
    match dictGet rest k with
    | some v2 => some v2
    | Option.none => if k2 = k then some v else Option.none

/-- The eval methods of the source.  Conjunction and disjunction use the
Python and / or operators, which short-circuit; the conditional evaluates both
operands before applying its lambda, and the biconditional compares both. -/
def PyEval : PyTree → Env → Except EErr Bool
  | .none, _ => .error .attributeError
  | .prop n, env =>
    match dictGet env n with
    | some b => .ok b
    | Option.none => .error (.keyError n)
  | .notE r, env =>
    match PyEval r env with
    | .ok b => .ok (!b)
    | .error e => .error e
  | .binop .conj l r, env =>
    match PyEval l env with
    | .ok true => PyEval r env
    | .ok false => .ok false
    | .error e => .error e
  | .binop .disj l r, env =>
    match PyEval l env with
    | .ok true => .ok true
    | .ok false => PyEval r env
    | .error e => .error e
  | .binop .cond l r, env =>
    match PyEval l env with
    | .error e => .error e
    | .ok a =>
      match PyEval r env with
      | .error e => .error e
      | .ok b => .ok (!(a && !b))
  | .binop .bicond l r, env =>
    match PyEval l env with
    | .error e => .error e
    | .ok a =>
      match PyEval r env with
      | .error e => .error e
      | .ok b => .ok (a == b)

/-- State-passing version of eval: the second component is the state of the
tree object after the call.  Each method reads self.l / self.r and calls eval
on them, assigning nothing, so the post-state is rebuilt from the children's
post-states; short-circuited children are returned untouched. -/
def evalM : PyTree → Env → Except EErr Bool × PyTree
  | .none, _ => (.error .attributeError, .none)
  | .prop n, env =>
    (match dictGet env n with
     | some b => .ok b
     | Option.none => .error (.keyError n), .prop n)
  | .notE r, env =>
    match evalM r env with
    | (.ok b, r2) => (.ok (!b), .notE r2)
    | (.error e, r2) => (.error e, .notE r2)
  | .binop .conj l r, env =>
    match evalM l env with
    | (.ok true, l2) =>
      match evalM r env with
      | (vr, r2) => (vr, .binop .conj l2 r2)
    | (.ok false, l2) => (.ok false, .binop .conj l2 r)
    | (.error e, l2) => (.error e, .binop .conj l2 r)
  | .binop .disj l r, env =>
    match evalM l env with
    | (.ok true, l2) => (.ok true, .binop .disj l2 r)
    | (.ok false, l2) =>
      match evalM r env with
      | (vr, r2) => (vr, .binop .disj l2 r2)
    | (.error e, l2) => (.error e, .binop .disj l2 r)
  | .binop .cond l r, env =>
    match evalM l env with
    | (.error e, l2) => (.error e, .binop .cond l2 r)
    | (.ok a, l2) =>
      match evalM r env with
      | (.error e, r2) => (.error e, .binop .cond l2 r2)
      | (.ok b, r2) => (.ok (!(a && !b)), .binop .cond l2 r2)
  | .binop .bicond l r, env =>
    match evalM l env with
    | (.error e, l2) => (.error e, .binop .bicond l2 r)
    | (.ok a, l2) =>
      match evalM r env with
      | (.error e, r2) => (.error e, .binop .bicond l2 r2)
      | (.ok b, r2) => (.ok (a == b), .binop .bicond l2 r2)

/-- The proposition names occurring in a tree, in left-to-right order with
repetition. -/
def occ : PyTree → List (List Char)
  | .none => []
  | .prop n => [n]
  | .notE r => occ r
  | .binop _ l r => occ l ++ occ r

/-- The tree is a proper Formula: no Python None anywhere in it. -/
def isFormula : PyTree → Bool
  | .none => false
  | .prop _ => true
  | .notE r => isFormula r
  | .binop _ l r => isFormula l && isFormula r

/-- The shape of a proposition token under the source's grammar: a start
character followed by continuation characters (lowercase v excluded in every
position by both character classes). -/
def isPropToken : List Char → Bool
  | [] => false
  | c :: cs => isStartChar c && cs.all isContChar

/-- Every proposition name in the tree has proposition-token shape. -/
def validNames : PyTree → Bool
  | .none => true
  | .prop n => isPropToken n
  | .notE r => validNames r
  | .binop _ l r => validNames l && validNames r

/-- list(set(xs)): one representative per distinct element.  A Python set
iterates in an unspecified order; the embedding fixes one deterministic
order, which is irrelevant to the claims proved here (they only count rows
and inspect assignments pointwise). -/
def pyDedup : List (List Char) → List (List Char)
  | [] => []
  | x :: rest => if x ∈ rest then pyDedup rest else x :: pyDedup rest

/-- itertools.product([False, True], repeat=n): all boolean tuples of length n,
first coordinate varying slowest. -/
def combos : Nat → List (List Bool)
  | 0 => [[]]
  | n+1 => (combos n).map (fun c => false :: c) ++ (combos n).map (fun c => true :: c)

/-- re.findall(r"[a-uw-zA-Z][a-uw-zA-Z_0-9]*", s): all maximal proposition
tokens of the string, left to right. -/
def findTokens : List Char → List (List Char)
  | [] => []
  | c :: cs =>
    if isStartChar c then
      (c :: cs.takeWhile isContChar) :: findTokens (cs.dropWhile isContChar)
    else findTokens cs
termination_by l => l.length
decreasing_by
  · simp only [List.length_cons]
    exact Nat.lt_succ_of_le (List.dropWhile_sublist _).length_le
  · simp

/-- The error path of the table function: the printed message
"Proposition not in expression." followed by an early return before any row is
produced. -/
inductive TErr where
  | unknownProposition
deriving DecidableEq

/-- The removal loop of table: props.remove(x) for each assumed key, removing
the first occurrence; a missing key raises ValueError, caught and turned into
the early error return. -/
def removeAssumed : List (List Char) → List (List Char × Bool) → Except TErr (List (List Char))
  | props, [] => .ok props
  | props, (k, _) :: rest =>
    if k ∈ props then removeAssumed (props.erase k) rest
    else .error .unknownProposition

/-- The table function of the source: derive the proposition set from the
rendered string with re.findall, remove the assumed names, enumerate all
combinations over the remaining free names, build each row's dictionary as the
zipped pairs followed by the assumed pairs, and evaluate the expression under
each row's dictionary (the printing loop calls expr.eval(x) per row; each
row's evaluation outcome is recorded here). -/
def table (t : PyTree) (assume : List (List Char × Bool)) :
    Except TErr (List (Env × Except EErr Bool)) :=
  match removeAssumed (pyDedup (findTokens (renderL t))) assume with
  | .error e => .error e
  | .ok free =>
    .ok ((combos free.length).map
      (fun c => (free.zip c ++ assume, PyEval t (free.zip c ++ assume))))

/-- The string is empty or starts with a character outside the continuation
class; boundary condition for the token scanner. -/
def headNotCont : List Char → Bool
  | [] => true
  | c :: _ => !isContChar c

/-! ## Helper lemmas about the character classes and matchers -/

theorem cont_of_start {c : Char} (h : isStartChar c = true) : isContChar c = true := by
  simp [isContChar, h]

theorem parenAux_none {s : List Char} (h : ')' ∉ s) : parenAux s = Option.none := by
  induction s with
  | nil => rfl
  | cons c rest ih =>
    rw [List.mem_cons, not_or] at h
    have h1 : ¬ (c = ')') := fun hc => h.1 hc.symm
    simp [parenAux, h1, ih h.2]

theorem paren_nil {s : List Char} (h : ')' ∉ s) : paren s = [] := by
  simp [paren, parenAux_none h]

theorem contTail_chars {l : List Char} (h : contTail l = true) :
    ∀ c ∈ l, isContChar c = true ∨ c = ')' := by
  induction l with
  | nil => intro c hc; cases hc
  | cons a rest ih =>
    intro c hc
    by_cases ha : a = ')'
    · rw [contTail, if_pos ha] at h
      have hr : rest = [] := of_decide_eq_true h
      subst hr
      rcases List.mem_cons.mp hc with rfl | hm
      · exact Or.inr ha
      · cases hm
    · rw [contTail, if_neg ha, Bool.and_eq_true] at h
      rcases List.mem_cons.mp hc with rfl | hm
      · exact Or.inl h.1
      · exact ih h.2 c hm

theorem propCore_chars {l : List Char} (h : propCore l = true) :
    ∀ c ∈ l, isContChar c = true ∨ c = ')' := by
  cases l with
  | nil => intro c hc; cases hc
  | cons b rest =>
    rw [propCore, Bool.and_eq_true] at h
    intro c hc
    rcases List.mem_cons.mp hc with rfl | hm
    · exact Or.inl (cont_of_start h.1)
    · exact contTail_chars h.2 c hm

theorem fullmatchProp_chars {s : List Char} (h : fullmatchProp s = true) :
    ∀ c ∈ s, isContChar c = true ∨ c = '(' ∨ c = ')' := by
  cases s with
  | nil => intro c hc; cases hc
  | cons a rest =>
    intro c hc
    rw [fullmatchProp] at h
    by_cases ha : a = '('
    · rw [if_pos ha] at h
      rcases List.mem_cons.mp hc with rfl | hm
      · exact Or.inr (Or.inl ha)
      · rcases propCore_chars h c hm with h1 | h1
        · exact Or.inl h1
        · exact Or.inr (Or.inr h1)
    · rw [if_neg ha] at h
      rcases propCore_chars h c hc with h1 | h1
      · exact Or.inl h1
      · exact Or.inr (Or.inr h1)

theorem fullmatchNeg_mem {s : List Char} (h : fullmatchNeg s = true) : '¬' ∈ s := by
  induction s with
  | nil => exact absurd h (by simp [fullmatchNeg])
  | cons a rest ih =>
    rw [fullmatchNeg] at h
    split at h
    · exact List.mem_cons_of_mem a (ih h)
    · rw [Bool.and_eq_true] at h
      have ha : a = '¬' := of_decide_eq_true h.1
      rw [ha]
      exact List.mem_cons_self _ _

theorem pyReplace_nil_mem_of {s new : List Char} {c : Char} (h : c ∈ s) :
    c ∈ pyReplace s [] new := by
  simp only [pyReplace, List.mem_append, List.mem_flatMap]
  exact Or.inr ⟨c, h, List.mem_cons_self _ _⟩

theorem pyReplace_nil_mem_inv {s new : List Char} {c : Char} (h : c ∈ pyReplace s [] new) :
    c ∈ new ∨ c ∈ s := by
  simp only [pyReplace, List.mem_append, List.mem_flatMap] at h
  rcases h with h | ⟨a, ha, hc⟩
  · exact Or.inl h
  · rcases List.mem_cons.mp hc with rfl | hm
    · exact Or.inr ha
    · exact Or.inl hm

/-- Divergence of parse on input that contains no close parenthesis and no
negation sign but some character that is neither a token character nor a
parenthesis: every pass replaces the empty result of paren everywhere in the
working string, which therefore never shrinks, never matches any grammar
pattern, and never terminates.  In Python this exhausts the recursion limit
(RecursionError); with an already-consumed default stack the initial pop can
raise IndexError instead.  In either case parse never returns a tree, for any
recursion budget and any stack state. -/
theorem parse_stuck : ∀ (fuel : Nat) (exp : List Char) (stack : List PyTree),
    (∃ c ∈ exp, isContChar c = false ∧ c ≠ '(' ∧ c ≠ ')' ∧ c ≠ '¬') →
    ')' ∉ exp → '¬' ∉ exp →
    ∃ e, parseS fuel exp stack = Except.error e := by
  intro fuel
  induction fuel with
  | zero => exact fun exp stack _ _ _ => ⟨.recursionError, rfl⟩
  | succ fuel ih =>
    intro exp stack hbad hcl hng
    rcases stack with _ | ⟨tree, rest⟩
    · exact ⟨.indexError, rfl⟩
    obtain ⟨c, hc, hcont, hcp, hcr, hcn⟩ := hbad
    have hnil : exp ≠ [] := by rintro rfl; cases hc
    have hpar : paren exp = [] := paren_nil hcl
    have h1 : ¬ (paren exp = exp) := by rw [hpar]; exact fun h => hnil h.symm
    have h2 : ¬ (exp = ("¬tmp").toList) := by
      rintro rfl; exact hng (by decide)
    have h3 : fullmatchProp exp = false := by
      cases hfp : fullmatchProp exp with
      | false => rfl
      | true =>
        rcases fullmatchProp_chars hfp c hc with h | h | h
        · rw [hcont] at h; cases h
        · exact absurd h hcp
        · exact absurd h hcr
    have h4 : fullmatchNeg exp = false := by
      cases hfn : fullmatchNeg exp with
      | false => rfl
      | true => exact absurd (fullmatchNeg_mem hfn) hng
    have hbad2 : ∃ c2 ∈ pyReplace exp [] (("tmp").toList),
        isContChar c2 = false ∧ c2 ≠ '(' ∧ c2 ≠ ')' ∧ c2 ≠ '¬' :=
      ⟨c, pyReplace_nil_mem_of hc, hcont, hcp, hcr, hcn⟩
    have hcl2 : ')' ∉ pyReplace exp [] (("tmp").toList) := by
      intro hm
      rcases pyReplace_nil_mem_inv hm with h | h
      · exact absurd h (by decide)
      · exact hcl h
    have hng2 : '¬' ∉ pyReplace exp [] (("tmp").toList) := by
      intro hm
      rcases pyReplace_nil_mem_inv hm with h | h
      · exact absurd h (by decide)
      · exact hng h
    simp only [parseS]
    rw [if_neg h1, if_neg h2]
    rw [if_neg (by rw [h3, h4]; simp : ¬ ((fullmatchProp exp || fullmatchNeg exp) = true))]
    simp only [hpar]
    obtain ⟨e, he⟩ := ih (pyReplace exp [] (("tmp").toList))
      (if tree = PyTree.none then simple [] :: rest
       else
         if (tmpReplace (simple []) tree).1 then (tmpReplace (simple []) tree).2 :: rest
         else (tmpReplace (simple []) tree).2 :: tree :: rest)
      hbad2 hcl2 hng2
    rw [he]
    exact ⟨e, rfl⟩

/-! ## Token-shape lemmas -/

theorem token_chars {s : List Char} (h : isPropToken s = true) :
    ∀ c ∈ s, isContChar c = true := by
  cases s with
  | nil => exact absurd h (by simp [isPropToken])
  | cons a cs =>
    rw [isPropToken, Bool.and_eq_true, List.all_eq_true] at h
    intro c hc
    rcases List.mem_cons.mp hc with rfl | hm
    · exact cont_of_start h.1
    · exact h.2 c hm

theorem contTail_of_all {cs : List Char} (h : ∀ x ∈ cs, isContChar x = true) :
    contTail cs = true := by
  induction cs with
  | nil => rfl
  | cons a rest ih =>
    have ha := h a (List.mem_cons_self a rest)
    have h2 : a ≠ ')' := by rintro rfl; exact absurd ha (by decide)
    rw [contTail, if_neg h2, Bool.and_eq_true]
    exact ⟨ha, ih fun x hx => h x (List.mem_cons_of_mem a hx)⟩

theorem takeWhile_all {p : Char → Bool} {l : List Char} (h : ∀ x ∈ l, p x = true) :
    l.takeWhile p = l := by
  induction l with
  | nil => rfl
  | cons a rest ih =>
    rw [List.takeWhile_cons, if_pos (h a (List.mem_cons_self a rest)),
      ih fun x hx => h x (List.mem_cons_of_mem a hx)]

theorem token_fullmatchProp {s : List Char} (h : isPropToken s = true) :
    fullmatchProp s = true := by
  cases s with
  | nil => exact absurd h (by simp [isPropToken])
  | cons c cs =>
    rw [isPropToken, Bool.and_eq_true, List.all_eq_true] at h
    have hcp : c ≠ '(' := by rintro rfl; exact absurd h.1 (by decide)
    rw [fullmatchProp, if_neg hcp, propCore, Bool.and_eq_true]
    exact ⟨h.1, contTail_of_all h.2⟩

theorem token_tmpre_false {s : List Char} (h : isPropToken s = true)
    (hne : s ≠ ("tmp").toList) : fullmatchTmpre s = false := by
  have hch := token_chars h
  have hstart : isStartChar (s.headD ' ') = true := by
    cases s with
    | nil => exact absurd h (by simp [isPropToken])
    | cons c cs =>
      rw [isPropToken, Bool.and_eq_true] at h
      exact h.1
  have h2 : s ≠ ("(tmp").toList := by
    intro he
    rw [he] at hstart
    exact absurd hstart (by decide)
  have h3 : s ≠ ("tmp)").toList := by
    intro he
    have hm : ')' ∈ s := by rw [he]; decide
    exact absurd (hch ')' hm) (by decide)
  have h4 : s ≠ ("(tmp)").toList := by
    intro he
    have hm : ')' ∈ s := by rw [he]; decide
    exact absurd (hch ')' hm) (by decide)
  simp only [fullmatchTmpre, Bool.or_eq_false_iff, decide_eq_false_iff_not]
  exact ⟨⟨⟨hne, h2⟩, h3⟩, h4⟩

theorem simple_token {s : List Char} (h : isPropToken s = true)
    (hne : s ≠ ("tmp").toList) : simple s = PyTree.prop s := by
  obtain ⟨c, cs, rfl⟩ : ∃ c cs, s = c :: cs := by
    cases s with
    | nil => exact absurd h (by simp [isPropToken])
    | cons c cs => exact ⟨c, cs, rfl⟩
  have hcs : ∀ x ∈ cs, isContChar x = true := by
    rw [isPropToken, Bool.and_eq_true, List.all_eq_true] at h
    exact h.2
  have hstart : isStartChar c = true := by
    rw [isPropToken, Bool.and_eq_true] at h
    exact h.1
  show simpleF (c :: cs).length (c :: cs) = _
  rw [List.length_cons, simpleF, token_tmpre_false h hne, token_fullmatchProp h]
  simp only [Bool.false_eq_true, if_false, if_true]
  rw [firstToken, if_pos hstart, takeWhile_all hcs]

/-! ## Theorems for the claims about the parser -/

/-- C1: sequential independence of parse fails on the code.  The default
argument stack=[None] is a single mutable list shared by all top-level calls;
the first parse("¬p") succeeds and leaves that list empty, so an identical
second call pops an empty list and raises IndexError instead of returning the
same result. -/
theorem C1_parse_default_stack :
    parseS 2 (("¬p").toList) [PyTree.none] =
      Except.ok (PyTree.notE (PyTree.prop (("p").toList)), []) ∧
    parseS 2 (("¬p").toList) [] = Except.error PErr.indexError :=
  ⟨rfl, rfl⟩

/-- C2: on the grammar-violating input ( v q) with an empty left operand,
parse raises no error at all: it returns a Disjunction node whose left child
is the Python value None, contradicting the claim that parse fails with
SyntaxError and never returns a tree on malformed input. -/
theorem C2_malformed_accepted :
    parseS 2 (("( v q)").toList) [PyTree.none] =
      Except.ok (PyTree.binop BinKind.disj PyTree.none (PyTree.prop (("q").toList)), []) :=
  rfl

/-- C3: the round-trip property fails because parse crashes on the
grammar-valid formula ((tmp1 v q) ^ r): after the final subtree is assembled,
the rendered result still contains the substring tmp (inside the legitimate
proposition name tmp1), so parse pops the already-empty stack and raises
IndexError instead of returning a tree. -/
theorem C3_roundtrip_crash :
    parseS 9 (("((tmp1 v q) ^ r)").toList) [PyTree.none] = Except.error PErr.indexError :=
  rfl

/-- C4: parse accepts the reserved placeholder token itself: parse("tmp")
returns Prop "tmp" instead of failing, so a returned tree can contain a node
whose name is the placeholder. -/
theorem C4_placeholder_returned :
    parseS 2 (("tmp").toList) [PyTree.none] =
      Except.ok (PyTree.prop (("tmp").toList), []) :=
  rfl

/-- C8 counterexample: parse does not accept the name av.  The token av is
rejected by the prop pattern (lowercase v is excluded from the continuation
class too), after which parse rewrites the working string with the empty
result of paren forever; no recursion budget makes it succeed. -/
theorem C8_cex_av_rejected : ¬ parseAccepts "av" := by
  rintro ⟨fuel, r, h⟩
  obtain ⟨e, he⟩ :=
    parse_stuck fuel (("av").toList) [PyTree.none] (by decide) (by decide) (by decide)
  rw [he] at h
  simp at h

/-- C8 amended: lowercase v is excluded from every position of a proposition
name, not only the leading one.  Every token made of a start character
followed by continuation characters (letters other than lowercase v, digits,
underscores), other than the reserved token tmp, is accepted by parse as an
atomic proposition with the token as its name, whatever the stack state. -/
theorem C8_prop_tokens (s : List Char) (fuel : Nat) (tree : PyTree) (rest : List PyTree)
    (h : isPropToken s = true) (hne : s ≠ ("tmp").toList) :
    parseS (fuel + 1) s (tree :: rest) = Except.ok (PyTree.prop s, rest) := by
  have hch := token_chars h
  have hcl : ')' ∉ s := fun hm => absurd (hch ')' hm) (by decide)
  have hnil : s ≠ [] := by rintro rfl; exact absurd h (by simp [isPropToken])
  have h1 : ¬ (paren s = s) := by rw [paren_nil hcl]; exact fun he => hnil he.symm
  have h2 : ¬ (s = ("¬tmp").toList) := by
    intro he
    have hm : '¬' ∈ s := by rw [he]; decide
    exact absurd (hch '¬' hm) (by decide)
  simp only [parseS]
  rw [if_neg h1, if_neg h2, if_pos (by rw [token_fullmatchProp h]; simp :
    (fullmatchProp s || fullmatchNeg s) = true), simple_token h hne]

/-- Witness for C8_prop_tokens at the concrete token ab. -/
theorem C8_prop_tokens_witness :
    isPropToken (("ab").toList) = true ∧ (("ab").toList ≠ ("tmp").toList) ∧
    parseS 1 (("ab").toList) [PyTree.none] =
      Except.ok (PyTree.prop (("ab").toList), []) :=
  ⟨by decide, by decide,
    C8_prop_tokens (("ab").toList) 0 PyTree.none [] (by decide) (by decide)⟩

/-! ## Evaluator lemmas -/

theorem evalOk_of_covers : ∀ (t : PyTree) (env : Env), isFormula t = true →
    (∀ n ∈ occ t, (dictGet env n).isSome = true) → ∃ b, PyEval t env = Except.ok b := by
  intro t
  induction t with
  | none => intro env hf _; simp [isFormula] at hf
  | prop n =>
    intro env _ hc
    have hs := hc n (by simp [occ])
    obtain ⟨b, hb⟩ := Option.isSome_iff_exists.mp hs
    exact ⟨b, by simp [PyEval, hb]⟩
  | notE r ih =>
    intro env hf hc
    simp only [isFormula] at hf
    obtain ⟨b, hb⟩ := ih env hf fun n hn => hc n (by simpa [occ] using hn)
    exact ⟨!b, by simp [PyEval, hb]⟩
  | binop k l r ihl ihr =>
    intro env hf hc
    rw [isFormula, Bool.and_eq_true] at hf
    obtain ⟨a, ha⟩ := ihl env hf.1 fun n hn => hc n (by simp [occ, hn])
    obtain ⟨b, hb⟩ := ihr env hf.2 fun n hn => hc n (by simp [occ, hn])
    cases k with
    | conj =>
      cases a with
      | true => exact ⟨b, by simp [PyEval, ha, hb]⟩
      | false => exact ⟨false, by simp [PyEval, ha]⟩
    | disj =>
      cases a with
      | true => exact ⟨true, by simp [PyEval, ha]⟩
      | false => exact ⟨b, by simp [PyEval, ha, hb]⟩
    | cond => exact ⟨!(a && !b), by simp [PyEval, ha, hb]⟩
    | bicond => exact ⟨a == b, by simp [PyEval, ha, hb]⟩

theorem evalErr_key : ∀ (t : PyTree) (env : Env) (e : EErr), isFormula t = true →
    PyEval t env = Except.error e →
    ∃ n, e = EErr.keyError n ∧ n ∈ occ t ∧ dictGet env n = Option.none := by
  intro t
  induction t with
  | none => intro env e hf _; simp [isFormula] at hf
  | prop n =>
    intro env e _ he
    simp only [PyEval] at he
    split at he
    · simp at he
    · next hd =>
      injection he with he2
      exact ⟨n, he2.symm, by simp [occ], hd⟩
  | notE r ih =>
    intro env e hf he
    simp only [isFormula] at hf
    simp only [PyEval] at he
    split at he
    · simp at he
    · next e2 hr =>
      injection he with he2
      obtain ⟨n, h1, h2, h3⟩ := ih env e2 hf hr
      exact ⟨n, he2 ▸ h1, by simp [occ, h2], h3⟩
  | binop k l r ihl ihr =>
    intro env e hf he
    rw [isFormula, Bool.and_eq_true] at hf
    cases k with
    | conj =>
      simp only [PyEval] at he
      split at he
      · next hl =>
        obtain ⟨n, h1, h2, h3⟩ := ihr env e hf.2 he
        exact ⟨n, h1, by simp [occ, h2], h3⟩
      · simp at he
      · next e2 hl =>
        injection he with he2
        obtain ⟨n, h1, h2, h3⟩ := ihl env e2 hf.1 hl
        exact ⟨n, he2 ▸ h1, by simp [occ, h2], h3⟩
    | disj =>
      simp only [PyEval] at he
      split at he
      · simp at he
      · next hl =>
        obtain ⟨n, h1, h2, h3⟩ := ihr env e hf.2 he
        exact ⟨n, h1, by simp [occ, h2], h3⟩
      · next e2 hl =>
        injection he with he2
        obtain ⟨n, h1, h2, h3⟩ := ihl env e2 hf.1 hl
        exact ⟨n, he2 ▸ h1, by simp [occ, h2], h3⟩
    | cond =>
      simp only [PyEval] at he
      split at he
      · next e2 hl =>
        injection he with he2
        obtain ⟨n, h1, h2, h3⟩ := ihl env e2 hf.1 hl
        exact ⟨n, he2 ▸ h1, by simp [occ, h2], h3⟩
      · next a hl =>
        split at he
        · next e2 hr =>
          injection he with he2
          obtain ⟨n, h1, h2, h3⟩ := ihr env e2 hf.2 hr
          exact ⟨n, he2 ▸ h1, by simp [occ, h2], h3⟩
        · simp at he
    | bicond =>
      simp only [PyEval] at he
      split at he
      · next e2 hl =>
        injection he with he2
        obtain ⟨n, h1, h2, h3⟩ := ihl env e2 hf.1 hl
        exact ⟨n, he2 ▸ h1, by simp [occ, h2], h3⟩
      · next a hl =>
        split at he
        · next e2 hr =>
          injection he with he2
          obtain ⟨n, h1, h2, h3⟩ := ihr env e2 hf.2 hr
          exact ⟨n, he2 ▸ h1, by simp [occ, h2], h3⟩
        · simp at he

theorem evalM_snd : ∀ (t : PyTree) (env : Env), (evalM t env).2 = t := by
  intro t env
  induction t with
  | none => rfl
  | prop n => rfl
  | notE r ih =>
    simp only [evalM]
    split
    · next b r2 heq =>
      rw [heq] at ih
      simp only at ih
      simp [ih]
    · next e r2 heq =>
      rw [heq] at ih
      simp only at ih
      simp [ih]
  | binop k l r ihl ihr =>
    cases k <;> simp only [evalM] <;> split <;> (try split) <;> simp_all

/-! ## Theorems for the claims about the evaluator -/

/-- C9 counterexample: evaluation does not fail exactly when a referenced name
is absent.  Conjunction short-circuits (Python and), so evaluating
(p ^ q) under the assignment that binds only p to False returns False even
though the referenced name q is absent from the assignment. -/
theorem C9_cex_short_circuit :
    PyEval
      (PyTree.binop BinKind.conj (PyTree.prop (("p").toList)) (PyTree.prop (("q").toList)))
      [((("p").toList), false)] = Except.ok false ∧
    (("q").toList) ∈ occ
      (PyTree.binop BinKind.conj (PyTree.prop (("p").toList)) (PyTree.prop (("q").toList))) ∧
    dictGet [((("p").toList), false)] (("q").toList) = Option.none :=
  ⟨rfl, by decide, rfl⟩

/-- C9 amended: eval terminates on every Formula and assignment (it is a total
function of the tree); it returns a boolean whenever the assignment covers
every name occurring in the formula; and whenever it fails, the failure is a
KeyError (UnboundPropositionError) naming a referenced proposition that is
absent from the assignment.  Because conjunction and disjunction
short-circuit, an absent name occurring only in an unevaluated right operand
does not cause a failure, so failure is not exactly characterized by the
presence of an absent referenced name. -/
theorem C9_eval_total (t : PyTree) (env : Env) (hf : isFormula t = true) :
    ((∀ n ∈ occ t, (dictGet env n).isSome = true) → ∃ b, PyEval t env = Except.ok b) ∧
    (∀ e, PyEval t env = Except.error e →
      ∃ n, e = EErr.keyError n ∧ n ∈ occ t ∧ dictGet env n = Option.none) :=
  ⟨evalOk_of_covers t env hf, fun e he => evalErr_key t env e hf he⟩

/-- Witness for C9_eval_total at the formula (p -> q) and the assignment
binding p to True and q to False. -/
theorem C9_eval_total_witness :
    isFormula
      (PyTree.binop BinKind.cond (PyTree.prop (("p").toList)) (PyTree.prop (("q").toList)))
      = true ∧
    (((∀ n ∈ occ (PyTree.binop BinKind.cond (PyTree.prop (("p").toList))
          (PyTree.prop (("q").toList))),
        (dictGet [((("p").toList), true), ((("q").toList), false)] n).isSome = true) →
      ∃ b, PyEval
        (PyTree.binop BinKind.cond (PyTree.prop (("p").toList)) (PyTree.prop (("q").toList)))
        [((("p").toList), true), ((("q").toList), false)] = Except.ok b) ∧
    (∀ e, PyEval
        (PyTree.binop BinKind.cond (PyTree.prop (("p").toList)) (PyTree.prop (("q").toList)))
        [((("p").toList), true), ((("q").toList), false)] = Except.error e →
      ∃ n, e = EErr.keyError n ∧
        n ∈ occ (PyTree.binop BinKind.cond (PyTree.prop (("p").toList))
          (PyTree.prop (("q").toList))) ∧
        dictGet [((("p").toList), true), ((("q").toList), false)] n = Option.none)) :=
  ⟨by decide, C9_eval_total _ _ (by decide)⟩

/-- C10: evaluation is read-only.  In the state-passing embedding of eval the
tree object is returned unchanged by every evaluation, so evaluating the tree
again under the same assignment (as the table generator does across rows)
yields the same result. -/
theorem C10_eval_pure (t : PyTree) (env : Env) :
    (evalM t env).2 = t ∧ (evalM ((evalM t env).2) env).1 = (evalM t env).1 := by
  refine ⟨evalM_snd t env, ?_⟩
  rw [evalM_snd]

/-! ## Scanner lemmas: findTokens on a rendered formula recovers its names -/

theorem findTokens_skip {s : List Char} (h : ∀ c ∈ s, isStartChar c = false)
    (y : List Char) : findTokens (s ++ y) = findTokens y := by
  induction s with
  | nil => rfl
  | cons c rest ih =>
    rw [List.cons_append]
    simp only [findTokens]
    rw [if_neg (by rw [h c (List.mem_cons_self c rest)]; simp)]
    exact ih fun x hx => h x (List.mem_cons_of_mem c hx)

theorem takeWhile_append_all {p : Char → Bool} {l1 : List Char}
    (h : ∀ x ∈ l1, p x = true) (l2 : List Char) :
    (l1 ++ l2).takeWhile p = l1 ++ l2.takeWhile p := by
  induction l1 with
  | nil => rfl
  | cons a rest ih =>
    rw [List.cons_append, List.takeWhile_cons, if_pos (h a (List.mem_cons_self a rest)),
      ih fun x hx => h x (List.mem_cons_of_mem a hx), List.cons_append]

theorem dropWhile_append_all {p : Char → Bool} {l1 : List Char}
    (h : ∀ x ∈ l1, p x = true) (l2 : List Char) :
    (l1 ++ l2).dropWhile p = l2.dropWhile p := by
  induction l1 with
  | nil => rfl
  | cons a rest ih =>
    rw [List.cons_append, List.dropWhile_cons, if_pos (h a (List.mem_cons_self a rest)),
      ih fun x hx => h x (List.mem_cons_of_mem a hx)]

theorem takeWhile_headNotCont {l : List Char} (h : headNotCont l = true) :
    l.takeWhile isContChar = [] := by
  cases l with
  | nil => rfl
  | cons c rest =>
    have hc : isContChar c = false := by rwa [headNotCont, Bool.not_eq_true'] at h
    simp [List.takeWhile_cons, hc]

theorem dropWhile_headNotCont {l : List Char} (h : headNotCont l = true) :
    l.dropWhile isContChar = l := by
  cases l with
  | nil => rfl
  | cons c rest =>
    have hc : isContChar c = false := by rwa [headNotCont, Bool.not_eq_true'] at h
    simp [List.dropWhile_cons, hc]

theorem headNotCont_sym (k : BinKind) (y : List Char) :
    headNotCont (binSym k ++ y) = true := by
  cases k <;> rfl

theorem binSym_not_start (k : BinKind) : ∀ c ∈ binSym k, isStartChar c = false := by
  cases k <;> decide

/-- The token scanner applied to the rendering of a well-formed formula,
followed by any text that does not start with a token-continuation character,
yields exactly the occurrence list of the formula's proposition names followed
by the scan of the remaining text. -/
theorem findTokens_render : ∀ (t : PyTree), isFormula t = true → validNames t = true →
    ∀ rest, headNotCont rest = true →
    findTokens (renderL t ++ rest) = occ t ++ findTokens rest := by
  intro t
  induction t with
  | none => intro hf _ _ _; simp [isFormula] at hf
  | prop n =>
    intro _ hv rest hrest
    rw [validNames] at hv
    obtain ⟨c, cs, rfl⟩ : ∃ c cs, n = c :: cs := by
      cases n with
      | nil => exact absurd hv (by simp [isPropToken])
      | cons c cs => exact ⟨c, cs, rfl⟩
    rw [isPropToken, Bool.and_eq_true, List.all_eq_true] at hv
    simp only [renderL, occ, List.cons_append]
    simp only [findTokens]
    rw [if_pos hv.1, takeWhile_append_all hv.2, dropWhile_append_all hv.2,
      takeWhile_headNotCont hrest, dropWhile_headNotCont hrest, List.append_nil]
    rfl
  | notE r ih =>
    intro hf hv rest hrest
    simp only [isFormula] at hf
    simp only [validNames] at hv
    simp only [renderL, occ, List.cons_append]
    simp only [findTokens]
    rw [if_neg (by decide : ¬ (isStartChar '¬' = true))]
    exact ih hf hv rest hrest
  | binop k l r ihl ihr =>
    intro hf hv rest hrest
    rw [isFormula, Bool.and_eq_true] at hf
    rw [validNames, Bool.and_eq_true] at hv
    simp only [renderL, occ, List.cons_append, List.append_assoc, List.nil_append]
    simp only [findTokens]
    rw [if_neg (by decide : ¬ (isStartChar '(' = true))]
    rw [ihl hf.1 hv.1 (binSym k ++ (renderL r ++ (')' :: rest))) (headNotCont_sym k _)]
    rw [findTokens_skip (binSym_not_start k)]
    rw [ihr hf.2 hv.2 (')' :: rest) rfl]
    rw [show findTokens (')' :: rest) = findTokens rest from by
      simp only [findTokens]; rw [if_neg (by decide : ¬ (isStartChar ')' = true))]]

theorem findTokens_renderL_eq {t : PyTree} (hf : isFormula t = true)
    (hv : validNames t = true) : findTokens (renderL t) = occ t := by
  have h := findTokens_render t hf hv [] rfl
  have h0 : findTokens ([] : List Char) = [] := by simp [findTokens]
  rw [List.append_nil] at h
  rw [h, h0, List.append_nil]

/-! ## Deduplication, combination and dictionary lemmas -/

theorem mem_pyDedup {l : List (List Char)} {x : List Char} : x ∈ pyDedup l ↔ x ∈ l := by
  induction l with
  | nil => simp [pyDedup]
  | cons a rest ih =>
    by_cases ha : a ∈ rest
    · rw [pyDedup, if_pos ha, ih]
      exact ⟨fun h => List.mem_cons_of_mem a h,
        fun h => by rcases List.mem_cons.mp h with rfl | h; exacts [ha, h]⟩
    · rw [pyDedup, if_neg ha]
      simp [List.mem_cons, ih]

theorem nodup_pyDedup (l : List (List Char)) : (pyDedup l).Nodup := by
  induction l with
  | nil => exact List.nodup_nil
  | cons a rest ih =>
    by_cases ha : a ∈ rest
    · rw [pyDedup, if_pos ha]; exact ih
    · rw [pyDedup, if_neg ha]
      exact List.Nodup.cons (fun h => ha (mem_pyDedup.mp h)) ih

theorem length_combos (n : Nat) : (combos n).length = 2 ^ n := by
  induction n with
  | zero => rfl
  | succ n ih =>
    simp only [combos, List.length_append, List.length_map, ih, pow_succ]
    omega

theorem length_of_mem_combos {n : Nat} {c : List Bool} (h : c ∈ combos n) :
    c.length = n := by
  induction n generalizing c with
  | zero => simp only [combos, List.mem_singleton] at h; simp [h]
  | succ n ih =>
    simp only [combos, List.mem_append, List.mem_map] at h
    rcases h with ⟨c2, hc2, rfl⟩ | ⟨c2, hc2, rfl⟩ <;> simp [ih hc2]

theorem nodup_combos (n : Nat) : (combos n).Nodup := by
  induction n with
  | zero => simp [combos]
  | succ n ih =>
    rw [combos]
    refine List.Nodup.append ?_ ?_ ?_
    · exact ih.map fun a b h => by injection h
    · exact ih.map fun a b h => by injection h
    · intro x hx hy
      simp only [List.mem_map] at hx hy
      obtain ⟨c1, _, rfl⟩ := hx
      obtain ⟨c2, _, h⟩ := hy
      injection h with h1 _
      cases h1

theorem ne_lists_exists_get : ∀ {c1 c2 : List Bool}, c1.length = c2.length → c1 ≠ c2 →
    ∃ (i : Nat) (h1 : i < c1.length) (h2 : i < c2.length),
      c1.get ⟨i, h1⟩ ≠ c2.get ⟨i, h2⟩ := by
  intro c1
  induction c1 with
  | nil =>
    intro c2 hl hne
    cases c2 with
    | nil => exact absurd rfl hne
    | cons b t2 => simp at hl
  | cons a t1 ih =>
    intro c2 hl hne
    cases c2 with
    | nil => simp at hl
    | cons b t2 =>
      by_cases hab : a = b
      · subst hab
        have ht : t1 ≠ t2 := fun h => hne (by rw [h])
        have hl2 : t1.length = t2.length := by simpa using hl
        obtain ⟨i, h1, h2, hg⟩ := ih hl2 ht
        exact ⟨i + 1, Nat.succ_lt_succ h1, Nat.succ_lt_succ h2, by simpa using hg⟩
      · exact ⟨0, by simp, by simp, by simpa using hab⟩

theorem dictGet_none_of_not_mem {d : Env} {k : List Char}
    (h : k ∉ d.map Prod.fst) : dictGet d k = Option.none := by
  induction d with
  | nil => rfl
  | cons x rest ih =>
    obtain ⟨k2, v⟩ := x
    simp only [List.map_cons, List.mem_cons, not_or] at h
    simp only [dictGet, ih h.2]
    rw [if_neg fun he => h.1 he.symm]

theorem dictGet_zip : ∀ (ks : List (List Char)) (vs : List Bool), ks.Nodup →
    vs.length = ks.length → ∀ (i : Nat) (hi : i < ks.length) (hv : i < vs.length),
    dictGet (ks.zip vs) (ks.get ⟨i, hi⟩) = some (vs.get ⟨i, hv⟩) := by
  intro ks
  induction ks with
  | nil => intro vs _ _ i hi _; exact absurd hi (by simp)
  | cons k ks ih =>
    intro vs hnd hl i hi hv
    cases vs with
    | nil => simp at hl
    | cons v vs =>
      simp only [List.zip_cons_cons]
      cases i with
      | zero =>
        have hz : dictGet (ks.zip vs) k = Option.none := by
          apply dictGet_none_of_not_mem
          intro hm
          rw [List.map_fst_zip ks vs (by simp at hl; omega)] at hm
          exact (List.nodup_cons.mp hnd).1 hm
        show dictGet ((k, v) :: ks.zip vs) k = some v
        simp [dictGet, hz]
      | succ i =>
        have hi2 : i < ks.length := by simpa using hi
        have hv2 : i < vs.length := by simpa using hv
        have hrec := ih vs (List.nodup_cons.mp hnd).2 (by simpa using hl) i hi2 hv2
        simp only [List.get_eq_getElem] at hrec
        simp only [List.get_eq_getElem, List.getElem_cons_succ]
        simp [dictGet, hrec]

theorem dictGet_append (d1 d2 : Env) (k : List Char) : dictGet (d1 ++ d2) k =
    match dictGet d2 k with
    | some v => some v
    | Option.none => dictGet d1 k := by
  induction d1 with
  | nil =>
    rw [List.nil_append]
    cases h : dictGet d2 k <;> simp [dictGet, h]
  | cons x rest ih =>
    obtain ⟨k2, v2⟩ := x
    rw [List.cons_append]
    simp only [dictGet, ih]
    cases h2 : dictGet d2 k <;> cases h1 : dictGet rest k <;> simp

theorem dictGet_append_last (d : Env) (k : List Char) (v : Bool) :
    dictGet (d ++ [(k, v)]) k = some v := by
  rw [dictGet_append]
  simp [dictGet]

theorem dictGet_single_ne {k k2 : List Char} {v : Bool} (h : k2 ≠ k) :
    dictGet [(k2, v)] k = Option.none := by
  simp [dictGet, h]

theorem removeAssumed_unknown : ∀ (assume : List (List Char × Bool))
    (props : List (List Char)), (∃ p ∈ assume, p.1 ∉ props) →
    removeAssumed props assume = Except.error TErr.unknownProposition := by
  intro assume
  induction assume with
  | nil => rintro props ⟨p, hp, _⟩; cases hp
  | cons a rest ih =>
    rintro props ⟨p, hp, hnp⟩
    obtain ⟨k, v⟩ := a
    by_cases hk : k ∈ props
    · rw [removeAssumed, if_pos hk]
      apply ih
      rcases List.mem_cons.mp hp with rfl | hm
      · exact absurd hk hnp
      · exact ⟨p, hm, fun hmem => hnp (List.mem_of_mem_erase hmem)⟩
    · rw [removeAssumed, if_neg hk]

/-! ## Theorems for the claims about the table generator -/

/-- C5: when the fixed-value mapping contains a key that does not occur among
the formula's proposition names, the table generator aborts with the
unknown-proposition error before producing any row. -/
theorem C5_unknown_fixed (t : PyTree) (assume : List (List Char × Bool))
    (hf : isFormula t = true) (hv : validNames t = true)
    (h : ∃ p ∈ assume, p.1 ∉ pyDedup (occ t)) :
    table t assume = Except.error TErr.unknownProposition := by
  have hsc := findTokens_renderL_eq hf hv
  simp only [table, hsc, removeAssumed_unknown assume (pyDedup (occ t)) h]

/-- Witness for C5_unknown_fixed: fixing z to true for the formula (p v q). -/
theorem C5_unknown_fixed_witness :
    isFormula (PyTree.binop BinKind.disj (PyTree.prop (("p").toList))
      (PyTree.prop (("q").toList))) = true ∧
    validNames (PyTree.binop BinKind.disj (PyTree.prop (("p").toList))
      (PyTree.prop (("q").toList))) = true ∧
    (∃ p ∈ [((("z").toList), true)],
      p.1 ∉ pyDedup (occ (PyTree.binop BinKind.disj (PyTree.prop (("p").toList))
        (PyTree.prop (("q").toList))))) ∧
    table (PyTree.binop BinKind.disj (PyTree.prop (("p").toList))
      (PyTree.prop (("q").toList))) [((("z").toList), true)] =
      Except.error TErr.unknownProposition :=
  ⟨by decide, by decide, by decide,
    C5_unknown_fixed _ _ (by decide) (by decide) (by decide)⟩

/-- C6: with an empty fixed-value mapping the table generator succeeds and
produces exactly two to the power of the number of distinct proposition names
many rows; no two rows carry the same assignment (they differ at some key),
and every row's evaluation returns a boolean. -/
theorem C6_table_complete (t : PyTree) (hf : isFormula t = true)
    (hv : validNames t = true) :
    ∃ rows, table t [] = Except.ok rows ∧
      rows.length = 2 ^ (pyDedup (occ t)).length ∧
      rows.Pairwise (fun r1 r2 => ∃ k, dictGet r1.1 k ≠ dictGet r2.1 k) ∧
      ∀ r ∈ rows, ∃ b, r.2 = Except.ok b := by
  have hsc := findTokens_renderL_eq hf hv
  have hnd : (pyDedup (occ t)).Nodup := nodup_pyDedup _
  have htab : table t [] = Except.ok ((combos (pyDedup (occ t)).length).map
      (fun c => ((pyDedup (occ t)).zip c ++ [],
        PyEval t ((pyDedup (occ t)).zip c ++ [])))) := by
    simp only [table, hsc, removeAssumed]
  refine ⟨_, htab, ?_, ?_, ?_⟩
  · simp [length_combos]
  · rw [List.pairwise_map]
    refine List.Pairwise.imp_of_mem ?_ (nodup_combos (pyDedup (occ t)).length)
    intro c1 c2 hc1 hc2 hne
    have hl1 := length_of_mem_combos hc1
    have hl2 := length_of_mem_combos hc2
    obtain ⟨i, h1, h2, hg⟩ := ne_lists_exists_get (by rw [hl1, hl2]) hne
    have hip : i < (pyDedup (occ t)).length := by omega
    refine ⟨(pyDedup (occ t)).get ⟨i, hip⟩, ?_⟩
    simp only [List.append_nil]
    rw [dictGet_zip _ c1 hnd (by omega) i hip (by omega),
      dictGet_zip _ c2 hnd (by omega) i hip (by omega)]
    simp only [ne_eq, Option.some.injEq]
    exact hg
  · intro r hr
    simp only [List.mem_map] at hr
    obtain ⟨c, hc, rfl⟩ := hr
    apply evalOk_of_covers t _ hf
    intro n hn
    have hnp : n ∈ pyDedup (occ t) := mem_pyDedup.mpr hn
    obtain ⟨⟨i, hi⟩, hgi⟩ := List.mem_iff_get.mp hnp
    simp only [List.append_nil]
    rw [← hgi, dictGet_zip _ c hnd (by rw [length_of_mem_combos hc]) i hi
      (by rw [length_of_mem_combos hc]; exact hi)]
    rfl

/-- Witness for C6_table_complete at the formula (p v q): four rows. -/
theorem C6_table_complete_witness :
    isFormula (PyTree.binop BinKind.disj (PyTree.prop (("p").toList))
      (PyTree.prop (("q").toList))) = true ∧
    validNames (PyTree.binop BinKind.disj (PyTree.prop (("p").toList))
      (PyTree.prop (("q").toList))) = true ∧
    (∃ rows, table (PyTree.binop BinKind.disj (PyTree.prop (("p").toList))
        (PyTree.prop (("q").toList))) [] = Except.ok rows ∧
      rows.length = 2 ^ (pyDedup (occ (PyTree.binop BinKind.disj
        (PyTree.prop (("p").toList)) (PyTree.prop (("q").toList))))).length ∧
      rows.Pairwise (fun r1 r2 => ∃ k, dictGet r1.1 k ≠ dictGet r2.1 k) ∧
      ∀ r ∈ rows, ∃ b, r.2 = Except.ok b) :=
  ⟨by decide, by decide, C6_table_complete _ (by decide) (by decide)⟩

/-- C7: fixing one occurring proposition name to true halves the table: the
generator succeeds with two to the power (n minus 1) rows, the fixed name maps
to true in every row's assignment, and every row's evaluation returns a
boolean. -/
theorem C7_fixed_filtering (t : PyTree) (k : List Char) (hf : isFormula t = true)
    (hv : validNames t = true) (hk : k ∈ pyDedup (occ t)) :
    ∃ rows, table t [(k, true)] = Except.ok rows ∧
      rows.length = 2 ^ ((pyDedup (occ t)).length - 1) ∧
      (∀ r ∈ rows, dictGet r.1 k = some true) ∧
      ∀ r ∈ rows, ∃ b, r.2 = Except.ok b := by
  have hsc := findTokens_renderL_eq hf hv
  have hnd : (pyDedup (occ t)).Nodup := nodup_pyDedup _
  have hnd2 : ((pyDedup (occ t)).erase k).Nodup := hnd.erase k
  have hlen : ((pyDedup (occ t)).erase k).length = (pyDedup (occ t)).length - 1 :=
    List.length_erase_of_mem hk
  have htab : table t [(k, true)] =
      Except.ok ((combos ((pyDedup (occ t)).erase k).length).map
        (fun c => (((pyDedup (occ t)).erase k).zip c ++ [(k, true)],
          PyEval t (((pyDedup (occ t)).erase k).zip c ++ [(k, true)])))) := by
    simp only [table, hsc, removeAssumed]
    rw [if_pos hk]
  refine ⟨_, htab, ?_, ?_, ?_⟩
  · simp [length_combos, hlen]
  · intro r hr
    simp only [List.mem_map] at hr
    obtain ⟨c, hc, rfl⟩ := hr
    exact dictGet_append_last _ k true
  · intro r hr
    simp only [List.mem_map] at hr
    obtain ⟨c, hc, rfl⟩ := hr
    apply evalOk_of_covers t _ hf
    intro n hn
    have hnp : n ∈ pyDedup (occ t) := mem_pyDedup.mpr hn
    rw [dictGet_append]
    by_cases hnk : n = k
    · subst hnk
      simp [dictGet]
    · have hne : n ∈ (pyDedup (occ t)).erase k := (List.mem_erase_of_ne hnk).mpr hnp
      rw [dictGet_single_ne fun he => hnk he.symm]
      obtain ⟨⟨i, hi⟩, hgi⟩ := List.mem_iff_get.mp hne
      rw [← hgi, dictGet_zip _ c hnd2 (by rw [length_of_mem_combos hc]) i hi
        (by rw [length_of_mem_combos hc]; exact hi)]
      rfl

/-- Witness for C7_fixed_filtering: the spec's concrete scenario 3, the
formula (p ^ ¬q) with p fixed to true: two rows, p true in each. -/
theorem C7_fixed_filtering_witness :
    isFormula (PyTree.binop BinKind.conj (PyTree.prop (("p").toList))
      (PyTree.notE (PyTree.prop (("q").toList)))) = true ∧
    validNames (PyTree.binop BinKind.conj (PyTree.prop (("p").toList))
      (PyTree.notE (PyTree.prop (("q").toList)))) = true ∧
    (("p").toList) ∈ pyDedup (occ (PyTree.binop BinKind.conj
      (PyTree.prop (("p").toList)) (PyTree.notE (PyTree.prop (("q").toList))))) ∧
    (∃ rows, table (PyTree.binop BinKind.conj (PyTree.prop (("p").toList))
        (PyTree.notE (PyTree.prop (("q").toList)))) [((("p").toList), true)] =
        Except.ok rows ∧
      rows.length = 2 ^ ((pyDedup (occ (PyTree.binop BinKind.conj
        (PyTree.prop (("p").toList))
        (PyTree.notE (PyTree.prop (("q").toList)))))).length - 1) ∧
      (∀ r ∈ rows, dictGet r.1 (("p").toList) = some true) ∧
      ∀ r ∈ rows, ∃ b, r.2 = Except.ok b) :=
  ⟨by decide, by decide, by decide,
    C7_fixed_filtering _ _ (by decide) (by decide) (by decide)⟩

end TT
